import Mathlib

/-!
Verification of the Merkle-tree core of the `bun-merkle-tree` repository.

Shallow embedding of `src/utils/MerkleTree.ts`, `src/utils/helpers.ts` and the
worker module.  The SHA-256 digest primitive is kept abstract: every definition
is parametrised by the digest function (`sha : List Nat → String` for hashing
byte sequences, `shaStr : String → String` for hashing strings), since none of
the verified properties depend on the internals of SHA-256.  JavaScript
`undefined` values arising from out-of-range array indexing are modelled by
`Option`, and the JS string coercion of `undefined` by `jsStr`.
-/

namespace BunMerkle

/-- A balance entry `{asset: string, balance: number}`.  The data generator of
the repository only ever produces non-negative integer balances, so `balance`
is modelled as `Nat` (JavaScript number-to-string agrees with `Nat.repr` on
these). -/
structure Balance where
  asset : String
  balance : Nat
deriving DecidableEq, Repr

/-- An `Account` record `{identifier: string, balances: Balance[]}` from
`MerkleTree.ts`. -/
structure Account where
  identifier : String
  balances : List Balance
deriving DecidableEq, Repr

/-- Direction tag of a proof step: `"left" | "right"`. -/
inductive Dir where
  | left
  | right
deriving DecidableEq, Repr

/-- One inclusion-proof step `{sibling, direction}`.  The sibling is an
`Option` because the source reads it by JS array indexing, which yields
`undefined` out of range. -/
structure ProofStep where
  sibling : Option String
  direction : Dir
deriving DecidableEq, Repr

/-- The `MerkleTree` class value: `leaves`, `layers`, `data`, `root`.  `root`
is an `Option` because the constructor computes it as
`this.layers[this.layers.length - 1][0]`, which is `undefined` when the last
layer is empty. -/
structure MerkleTreeModel (α : Type) where
  leaves : List String
  layers : List (List String)
  data : List α
  root : Option String
deriving Repr

/-- Result record of `verifyTree`: `{status, completed, errors}`. -/
structure VerifyResult where
  status : Bool
  completed : Nat
  errors : Nat
deriving DecidableEq, Repr

/-- Value of one hexadecimal digit, `none` for a non-hex character
(`0-9`, `a-f`, `A-F`, as accepted by Node's hex decoder). -/
def hexVal (c : Char) : Option Nat :=
  let n := c.toNat
  if 48 ≤ n ∧ n ≤ 57 then some (n - 48)
  else if 97 ≤ n ∧ n ≤ 102 then some (n - 87)
  else if 65 ≤ n ∧ n ≤ 70 then some (n - 55)
  else none

/-- Node.js `Buffer.from(s, "hex")` semantics on a character list: decode hex
pairs left to right and stop silently at the first invalid pair (a trailing
odd character is dropped).  Malformed input never raises. -/
def hexDecodeAux : List Char → List Nat
  | c1 :: c2 :: rest =>
    match hexVal c1, hexVal c2 with
    | some hi, some lo => (16 * hi + lo) :: hexDecodeAux rest
    | _, _ => []
  | _ => []

/-- Result of `Buffer.from(s, "hex")` as a byte (`Nat`) list. -/
def hexDecode (s : String) : List Nat :=
  hexDecodeAux s.data

/-- A string that decodes fully: even length, all hex digits.  Every digest
produced by SHA-256 hex encoding satisfies this. -/
def validHex (s : String) : Bool :=
  s.data.all (fun c => (hexVal c).isSome) && s.data.length % 2 == 0

/-- The `hashPair` function from `helpers.ts` (identical to the `MerkleTree.hashPair`
method): `Buffer.from(left + right, "hex")` hashed with SHA-256 (abstract
`sha`). -/
def hashPair (sha : List Nat → String) (left right : String) : String :=
  sha (hexDecode (left ++ right))

/-- The `stringifyAccounts` function from `helpers.ts`:
`identifier + ":" + balances.map(b => asset + balance).join(",")`. -/
def stringifyAccounts (accounts : List Account) : List String :=
  accounts.map (fun account =>
    account.identifier ++ ":" ++
      String.intercalate "," (account.balances.map (fun b => b.asset ++ Nat.repr b.balance)))

/-- The `type === "balances"` branch of `hashData` from `helpers.ts`: each
record is canonicalized by `stringifyAccounts([leaf])[0]` and hashed
(`hashGeneric`, abstract `shaStr`). -/
def hashDataBalances (shaStr : String → String) (data : List Account) : List String :=
  data.map (fun leaf => shaStr ((stringifyAccounts [leaf]).getD 0 ""))

/-- The generic branch of `hashData` from `helpers.ts`: each string is hashed
directly. -/
def hashDataGeneric (shaStr : String → String) (data : List String) : List String :=
  data.map (fun leaf => shaStr leaf)

/-- Inner `for (let i = 0; i < currentLayer.length; i += 2)` loop of
`buildTree` / `workerBuildTree`: combine adjacent nodes, self-pairing the
dangling last node of an odd-length layer. -/
def combineLayer (hp : String → String → String) : List String → List String
  | [] => []
  | [a] => [hp a a]
  | a :: b :: rest => hp a b :: combineLayer hp rest

/-- The `while (currentLayer.length > 1)` loop of `buildTree` /
`workerBuildTree`, with explicit fuel.  Each iteration at least halves a layer
of length ≥ 2, so `leaves.length` units of fuel always suffice (proved in
`buildLayersAux_fuel_irrel`-style lemmas below); fuel 0 is only reached with
an empty layer, where the loop would not run anyway. -/
def buildLayersAux (hp : String → String → String) : Nat → List String → List (List String)
  | 0, cur => [cur]
  | fuel + 1, cur =>
    if cur.length ≤ 1 then [cur]
    else cur :: buildLayersAux hp fuel (combineLayer hp cur)

/-- Layer construction: `this.layers = [this.leaves]` followed by
`buildTree()` (equally, `workerBuildTree(leaves)`). -/
def buildLayers (hp : String → String → String) (leaves : List String) : List (List String) :=
  buildLayersAux hp leaves.length leaves

/-- The root slot `this.layers[this.layers.length - 1][0]`; `none` models
the JS `undefined` obtained when the last layer is empty. -/
def rootOf (layers : List (List String)) : Option String :=
  (layers.getD (layers.length - 1) [])[0]?

/-- The `else` branch of the `MerkleTree` constructor: hash the data, build
the layers, read the root. -/
def freshTree {α : Type} (hp : String → String → String) (hashFn : List α → List String)
    (data : List α) : MerkleTreeModel α :=
  let leaves := hashFn data
  let layers := buildLayers hp leaves
  { leaves := leaves, layers := layers, data := data, root := rootOf layers }

/-- The `MerkleTree` constructor.  The guard `if (leaves && layers && root)`
uses JS truthiness: the two arrays are truthy whenever present (even when
empty), while a present-but-empty root string is falsy and falls through to
the fresh build. -/
def mkTree {α : Type} (hp : String → String → String) (hashFn : List α → List String)
    (data : List α) (leavesOpt : Option (List String)) (layersOpt : Option (List (List String)))
    (rootOpt : Option String) : MerkleTreeModel α :=
  match leavesOpt, layersOpt, rootOpt with
  | some leaves, some layers, some root =>
    if root = "" then freshTree hp hashFn data
    else { leaves := leaves, layers := layers, data := data, root := some root }
  | _, _, _ => freshTree hp hashFn data

/-- The `type === "balances"` instantiation of the constructor. -/
def mkTreeBalances (shaStr : String → String) (sha : List Nat → String) (data : List Account)
    (leavesOpt : Option (List String)) (layersOpt : Option (List (List String)))
    (rootOpt : Option String) : MerkleTreeModel Account :=
  mkTree (hashPair sha) (hashDataBalances shaStr) data leavesOpt layersOpt rootOpt

/-- The `type === "generic"` instantiation of the constructor. -/
def mkTreeGeneric (shaStr : String → String) (sha : List Nat → String) (data : List String)
    (leavesOpt : Option (List String)) (layersOpt : Option (List (List String)))
    (rootOpt : Option String) : MerkleTreeModel String :=
  mkTree (hashPair sha) (hashDataGeneric shaStr) data leavesOpt layersOpt rootOpt

/-- Body of one `getProof` loop iteration at layer `layer` with current index
`c`: pick the sibling index by parity, bounds-check it, and fall back to the
current node (direction `right`) when the sibling is out of range. -/
def proofStep (layer : List String) (c : Nat) : ProofStep :=
  let isRight := c % 2 == 1
  let sibIdx := if isRight then c - 1 else c + 1
  if sibIdx < layer.length then
    { sibling := layer[sibIdx]?, direction := if isRight then Dir.left else Dir.right }
  else
    { sibling := layer[c]?, direction := Dir.right }

/-- The `getProof` method from `MerkleTree.ts` (and, identically, the worker module):
one step per layer except the last, halving the index each time.  The source
performs no bounds check on `index`. -/
def getProof : List (List String) → Nat → List ProofStep
  | [], _ => []
  | [_], _ => []
  | layer :: next :: rest, c => proofStep layer c :: getProof (next :: rest) (c / 2)

/-- JS string coercion applied by `left + right` inside `hashPair` when a
sibling read out of range is `undefined`. -/
def jsStr : Option String → String
  | some s => s
  | none => "undefined"

/-- One iteration of the `for (const {sibling, direction} of proof)` loop in
`verifyLeaf`. -/
def applyStep (hp : String → String → String) (acc : String) (s : ProofStep) : String :=
  match s.direction with
  | Dir.left => hp (jsStr s.sibling) acc
  | Dir.right => hp acc (jsStr s.sibling)

/-- The `verifyLeaf` method from `MerkleTree.ts` (and the worker): fold the proof over
the leaf and compare with the root (`computedHash === root`; the root slot may
be JS `undefined`, hence the `Option`). -/
def verifyLeaf (hp : String → String → String) (leaf : String) (proof : List ProofStep)
    (root : Option String) : Bool :=
  decide (some (proof.foldl (applyStep hp) leaf) = root)

/-- The `verifyTree` method from `MerkleTree.ts` (and `handleValidate` in the worker):
loop over all leaf indices, counting verified and unverified leaves;
`status`/`success` is `errors === 0`. -/
def verifyTree {α : Type} (hp : String → String → String) (t : MerkleTreeModel α) :
    VerifyResult :=
  let counts := (List.range t.leaves.length).foldl
    (fun acc i =>
      if verifyLeaf hp (t.leaves.getD i "") (getProof t.layers i) t.root
      then (acc.1 + 1, acc.2)
      else (acc.1, acc.2 + 1))
    (0, 0)
  { status := counts.2 == 0, completed := counts.1, errors := counts.2 }

/-- Modelled from the spec: structural invariants 1-3 of §3 (leaf-layer
length equals record count, each layer halves rounded up, last layer has
exactly one element which is the root).  The source has no counterpart — the
constructor performs no validation — so this is the spec-side predicate the
precomputed-bundle claim is checked against. -/
def specInvariants {α : Type} (t : MerkleTreeModel α) : Bool :=
  ((t.layers.getD 0 []).length == t.data.length)
  && (List.range (t.layers.length - 1)).all
      (fun i => (t.layers.getD (i + 1) []).length == ((t.layers.getD i []).length + 1) / 2)
  && ((t.layers.getD (t.layers.length - 1) []).length == 1)
  && (t.root == (t.layers.getD (t.layers.length - 1) [])[0]?)

/-! ### General lemmas about the embedded operations -/

/-- In-range JS array indexing yields a defined value. -/
theorem getElem?_lt {α : Type} : ∀ (l : List α) (k : Nat) (d : α), k < l.length →
    l[k]? = some (l.getD k d)
  | [], _, _, h => by simp at h
  | _ :: _, 0, _, _ => by simp
  | _ :: t, k + 1, d, h => by
    rw [List.getElem?_cons_succ, List.getD_cons_succ]
    exact getElem?_lt t k d (by simp at h; omega)

/-- One pass of the builder halves the layer, rounding up. -/
theorem combineLayer_length (hp : String → String → String) :
    ∀ (l : List String), (combineLayer hp l).length = (l.length + 1) / 2
  | [] => rfl
  | [_] => by simp [combineLayer]
  | _ :: _ :: t => by
    simp only [combineLayer, List.length_cons, combineLayer_length hp t]
    omega

/-- Every parent produced by one builder pass combines its two children,
self-pairing the dangling last child of an odd-length layer. -/
theorem combineLayer_getD (hp : String → String → String) :
    ∀ (l : List String) (j : Nat), 2 * j < l.length →
      (combineLayer hp l).getD j "" =
        if 2 * j + 1 < l.length then hp (l.getD (2 * j) "") (l.getD (2 * j + 1) "")
        else hp (l.getD (2 * j) "") (l.getD (2 * j) "")
  | [], j, h => by simp at h
  | [a], j, h => by
    have hj : j = 0 := by simp at h; omega
    subst hj
    simp [combineLayer]
  | a :: b :: t, 0, _ => by
    simp [combineLayer]
  | a :: b :: t, j + 1, h => by
    have ht : 2 * j < t.length := by simp at h; omega
    have ih := combineLayer_getD hp t j ht
    have e1 : 2 * (j + 1) = 2 * j + 1 + 1 := by omega
    have e2 : 2 * (j + 1) + 1 = 2 * j + 1 + 1 + 1 := by omega
    simp only [combineLayer, List.getD_cons_succ, e1, e2, List.length_cons]
    rw [ih]
    by_cases hc : 2 * j + 1 < t.length
    · rw [if_pos hc, if_pos (by omega)]
    · rw [if_neg hc, if_neg (by omega)]

/-- The first layer returned by the builder loop is its input. -/
theorem buildLayersAux_head (hp : String → String → String) (fuel : Nat) (l : List String) :
    (buildLayersAux hp fuel l)[0]? = some l := by
  cases fuel with
  | zero => rfl
  | succ n =>
    simp only [buildLayersAux]
    split <;> simp

/-- The builder loop always returns at least one layer. -/
theorem buildLayersAux_ne_nil (hp : String → String → String) (fuel : Nat) (l : List String) :
    buildLayersAux hp fuel l ≠ [] := by
  cases fuel with
  | zero => simp [buildLayersAux]
  | succ n =>
    simp only [buildLayersAux]
    split <;> simp

/-- Adjacent layers of the builder output are related by one builder pass. -/
theorem buildLayersAux_adj (hp : String → String → String) :
    ∀ (i fuel : Nat) (l cur next : List String), l.length ≤ fuel →
      (buildLayersAux hp fuel l)[i]? = some cur →
      (buildLayersAux hp fuel l)[i + 1]? = some next →
      next = combineLayer hp cur := by
  intro i
  induction i with
  | zero =>
    intro fuel l cur next hf h0 h1
    cases fuel with
    | zero => simp [buildLayersAux] at h1
    | succ fuel =>
      by_cases hlen : l.length ≤ 1
      · simp [buildLayersAux, hlen] at h1
      · simp only [buildLayersAux, if_neg hlen, List.getElem?_cons_zero,
          List.getElem?_cons_succ, Option.some.injEq] at h0 h1
        rw [buildLayersAux_head] at h1
        rw [← h0]
        exact (Option.some.injEq _ _ ▸ h1).symm
  | succ i ih =>
    intro fuel l cur next hf h0 h1
    cases fuel with
    | zero => simp [buildLayersAux] at h0
    | succ fuel =>
      by_cases hlen : l.length ≤ 1
      · simp [buildLayersAux, hlen] at h0
      · simp only [buildLayersAux, if_neg hlen, List.getElem?_cons_succ] at h0 h1
        have hf2 : (combineLayer hp l).length ≤ fuel := by
          rw [combineLayer_length]; omega
        exact ih fuel (combineLayer hp l) cur next hf2 h0 h1

/-- Walking a valid index down the layers stays in range: at layer `i` the
current index is `c / 2 ^ i`, and it indexes into that layer. -/
theorem buildLayersAux_range (hp : String → String → String) :
    ∀ (i fuel : Nat) (l cur : List String) (c : Nat), l.length ≤ fuel → c < l.length →
      (buildLayersAux hp fuel l)[i]? = some cur →
      c / 2 ^ i < cur.length := by
  intro i
  induction i with
  | zero =>
    intro fuel l cur c hf hc h0
    rw [buildLayersAux_head] at h0
    have : l = cur := by simpa using h0
    subst this
    simpa using hc
  | succ i ih =>
    intro fuel l cur c hf hc h0
    cases fuel with
    | zero =>
      have : l.length = 0 := by omega
      omega
    | succ fuel =>
      by_cases hlen : l.length ≤ 1
      · simp [buildLayersAux, hlen] at h0
      · simp only [buildLayersAux, if_neg hlen, List.getElem?_cons_succ] at h0
        have hf2 : (combineLayer hp l).length ≤ fuel := by
          rw [combineLayer_length]; omega
        have hc2 : c / 2 < (combineLayer hp l).length := by
          rw [combineLayer_length]; omega
        have h := ih fuel (combineLayer hp l) cur (c / 2) hf2 hc2 h0
        have e : c / 2 ^ (i + 1) = c / 2 / 2 ^ i := by
          rw [Nat.div_div_eq_div_mul, pow_succ, Nat.mul_comm]
        rw [e]
        exact h

/-- The number of layers is `ceil(log2(len)) + 1` (`Nat.clog 2` is the
ceiling logarithm); an input of length ≤ 1 gives exactly one layer. -/
theorem buildLayersAux_length (hp : String → String → String) :
    ∀ (fuel : Nat) (l : List String), l.length ≤ fuel →
      (buildLayersAux hp fuel l).length = Nat.clog 2 l.length + 1 := by
  intro fuel
  induction fuel with
  | zero =>
    intro l hf
    have : l.length = 0 := by omega
    simp [buildLayersAux, Nat.clog_of_right_le_one (by omega : l.length ≤ 1)]
  | succ fuel ih =>
    intro l hf
    by_cases hlen : l.length ≤ 1
    · simp [buildLayersAux, hlen, Nat.clog_of_right_le_one hlen]
    · have hf2 : (combineLayer hp l).length ≤ fuel := by
        rw [combineLayer_length]; omega
      have hrec := ih (combineLayer hp l) hf2
      have hclog : Nat.clog 2 l.length = Nat.clog 2 ((l.length + 2 - 1) / 2) + 1 :=
        Nat.clog_of_two_le (by norm_num) (by omega)
      have e : l.length + 2 - 1 = l.length + 1 := by omega
      rw [e] at hclog
      simp only [buildLayersAux, if_neg hlen, List.length_cons]
      rw [hrec, combineLayer_length, hclog]

/-- The last layer of the builder output on a non-empty input has exactly one
node. -/
theorem buildLayersAux_last (hp : String → String → String) :
    ∀ (fuel : Nat) (l : List String), l.length ≤ fuel → 0 < l.length →
      ((buildLayersAux hp fuel l).getD ((buildLayersAux hp fuel l).length - 1) []).length = 1 := by
  intro fuel
  induction fuel with
  | zero => intro l hf hp0; omega
  | succ fuel ih =>
    intro l hf hpos
    by_cases hlen : l.length ≤ 1
    · simp only [buildLayersAux, if_pos hlen, List.length_cons, List.length_nil,
        Nat.add_sub_cancel, List.getD_cons_zero]
      omega
    · have hf2 : (combineLayer hp l).length ≤ fuel := by
        rw [combineLayer_length]; omega
      have hpos2 : 0 < (combineLayer hp l).length := by
        rw [combineLayer_length]; omega
      have hrec := ih (combineLayer hp l) hf2 hpos2
      have hne := buildLayersAux_ne_nil hp fuel (combineLayer hp l)
      have hrl : 0 < (buildLayersAux hp fuel (combineLayer hp l)).length :=
        List.length_pos.mpr hne
      simp only [buildLayersAux, if_neg hlen, List.length_cons, Nat.add_sub_cancel]
      rw [show (buildLayersAux hp fuel (combineLayer hp l)).length =
          ((buildLayersAux hp fuel (combineLayer hp l)).length - 1) + 1 from by omega,
        List.getD_cons_succ]
      exact hrec

/-- Dropping the first layer does not change the root slot, provided at least
one layer remains. -/
theorem rootOf_cons {x : List String} {rest : List (List String)} (h : rest ≠ []) :
    rootOf (x :: rest) = rootOf rest := by
  obtain ⟨y, ys, rfl⟩ : ∃ y ys, rest = y :: ys := by
    cases rest with
    | nil => exact absurd rfl h
    | cons y ys => exact ⟨y, ys, rfl⟩
  simp only [rootOf, List.length_cons, Nat.add_sub_cancel, List.getD_cons_succ]

/-- The `getProof` walk always returns one step per non-root layer, whatever the
index. -/
theorem getProof_length : ∀ (layers : List (List String)) (c : Nat),
    (getProof layers c).length = layers.length - 1
  | [], _ => rfl
  | [_], _ => rfl
  | _ :: b :: t, c => by
    simp only [getProof, List.length_cons, getProof_length (b :: t) (c / 2)]
    omega

/-- The `i`-th proof step reads layer `i` at the halved index `c / 2 ^ i`. -/
theorem getProof_getElem? : ∀ (layers : List (List String)) (c i : Nat),
    i < layers.length - 1 →
    (getProof layers c)[i]? = some (proofStep (layers.getD i []) (c / 2 ^ i))
  | [], _, i, h => by simp at h
  | [_], _, i, h => by simp at h
  | a :: b :: t, c, 0, _ => by
    simp [getProof]
  | a :: b :: t, c, i + 1, h => by
    have h2 : i < (b :: t).length - 1 := by simp at h ⊢; omega
    have ih := getProof_getElem? (b :: t) (c / 2) i h2
    have e : c / 2 ^ (i + 1) = c / 2 / 2 ^ i := by
      rw [Nat.div_div_eq_div_mul, pow_succ, Nat.mul_comm]
    simp only [getProof, List.getElem?_cons_succ, List.getD_cons_succ, e]
    exact ih

/-- For an in-range current index the loop body of `getProof` follows the
three-way rule of the specification. -/
theorem proofStep_cases (cur : List String) (c : Nat) (hc : c < cur.length) :
    proofStep cur c =
      if c % 2 = 1 then { sibling := cur[c - 1]?, direction := Dir.left }
      else if c + 1 < cur.length then { sibling := cur[c + 1]?, direction := Dir.right }
      else { sibling := cur[c]?, direction := Dir.right } := by
  rcases Nat.mod_two_eq_zero_or_one c with h | h
  · simp [proofStep, h]
  · have h1 : c - 1 < cur.length := by omega
    simp [proofStep, h, h1]

/-- Applying one proof step to the node at the current index yields the node
at the halved index in the next layer. -/
theorem applyStep_proofStep (hp : String → String → String) (l : List String) (c : Nat)
    (hc : c < l.length) :
    applyStep hp (l.getD c "") (proofStep l c) = (combineLayer hp l).getD (c / 2) "" := by
  have h2j : 2 * (c / 2) < l.length := by omega
  rw [combineLayer_getD hp l (c / 2) h2j]
  rcases Nat.mod_two_eq_zero_or_one c with h | h
  · -- even current index
    have e : 2 * (c / 2) = c := by omega
    rw [e]
    by_cases hsib : c + 1 < l.length
    · rw [if_pos hsib]
      have hps : proofStep l c = { sibling := l[c + 1]?, direction := Dir.right } := by
        simp [proofStep, h, hsib]
      rw [hps]
      show hp (l.getD c "") (jsStr l[c + 1]?) = hp (l.getD c "") (l.getD (c + 1) "")
      rw [getElem?_lt l (c + 1) "" hsib]
      rfl
    · rw [if_neg hsib]
      have hps : proofStep l c = { sibling := l[c]?, direction := Dir.right } := by
        simp [proofStep, h, hsib]
      rw [hps]
      show hp (l.getD c "") (jsStr l[c]?) = hp (l.getD c "") (l.getD c "")
      rw [getElem?_lt l c "" hc]
      rfl
  · -- odd current index
    have e : 2 * (c / 2) = c - 1 := by omega
    have e1 : 2 * (c / 2) + 1 = c := by omega
    rw [e1, e]
    have h1 : c - 1 < l.length := by omega
    rw [if_pos hc]
    have hps : proofStep l c = { sibling := l[c - 1]?, direction := Dir.left } := by
      simp [proofStep, h, h1]
    rw [hps]
    show hp (jsStr l[c - 1]?) (l.getD c "") = hp (l.getD (c - 1) "") (l.getD c "")
    rw [getElem?_lt l (c - 1) "" h1]
    rfl

/-- Folding the derived proof over the leaf at an in-range index recomputes
the root slot of the built layers. -/
theorem verify_fold (hp : String → String → String) :
    ∀ (fuel : Nat) (l : List String) (c : Nat), l.length ≤ fuel → c < l.length →
      some ((getProof (buildLayersAux hp fuel l) c).foldl (applyStep hp) (l.getD c "")) =
        rootOf (buildLayersAux hp fuel l) := by
  intro fuel
  induction fuel with
  | zero => intro l c hf hc; omega
  | succ fuel ih =>
    intro l c hf hc
    by_cases hlen : l.length ≤ 1
    · have hc0 : c = 0 := by omega
      subst hc0
      obtain ⟨a, ha⟩ : ∃ a, l = [a] := by
        cases l with
        | nil => simp at hc
        | cons x t =>
          cases t with
          | nil => exact ⟨x, rfl⟩
          | cons y t2 => simp at hlen
      subst ha
      simp [buildLayersAux, getProof, rootOf]
    · simp only [buildLayersAux, if_neg hlen]
      obtain ⟨r0, rt, hrt⟩ : ∃ r0 rt, buildLayersAux hp fuel (combineLayer hp l) = r0 :: rt := by
        cases hx : buildLayersAux hp fuel (combineLayer hp l) with
        | nil => exact absurd hx (buildLayersAux_ne_nil hp fuel (combineLayer hp l))
        | cons r0 rt => exact ⟨r0, rt, rfl⟩
      have hf2 : (combineLayer hp l).length ≤ fuel := by
        rw [combineLayer_length]; omega
      have hc2 : c / 2 < (combineLayer hp l).length := by
        rw [combineLayer_length]; omega
      have hrec := ih (combineLayer hp l) (c / 2) hf2 hc2
      rw [hrt] at hrec
      rw [hrt]
      simp only [getProof, List.foldl_cons]
      rw [applyStep_proofStep hp l c hc]
      rw [rootOf_cons (by simp : (r0 :: rt : List (List String)) ≠ [])]
      exact hrec

/-- Node hex decoding distributes over concatenation when the left part is a
fully valid even-length hex string. -/
theorem hexDecodeAux_append : ∀ (l r : List Char), l.length % 2 = 0 →
    (∀ c ∈ l, (hexVal c).isSome) →
    hexDecodeAux (l ++ r) = hexDecodeAux l ++ hexDecodeAux r
  | [], _, _, _ => rfl
  | [c], _, h, _ => by simp at h
  | c1 :: c2 :: t, r, h, hall => by
    obtain ⟨a, ha⟩ := Option.isSome_iff_exists.mp (hall c1 (by simp))
    obtain ⟨b, hb⟩ := Option.isSome_iff_exists.mp (hall c2 (by simp))
    have ht : t.length % 2 = 0 := by simp at h; omega
    have htall : ∀ c ∈ t, (hexVal c).isSome := fun c hc => hall c (by simp [hc])
    have ih := hexDecodeAux_append t r ht htall
    show hexDecodeAux (c1 :: c2 :: (t ++ r)) = hexDecodeAux (c1 :: c2 :: t) ++ hexDecodeAux r
    simp only [hexDecodeAux, ha, hb]
    rw [ih]
    rfl

/-- Splitting a list into hits and misses of a Boolean predicate accounts for
every element. -/
theorem countP_not_add {α : Type} (p : α → Bool) :
    ∀ (l : List α), l.countP p + l.countP (fun a => !(p a)) = l.length
  | [] => by simp
  | x :: t => by
    by_cases hx : p x
    · rw [List.countP_cons_of_pos p t hx, List.countP_cons_of_neg _ t (by simp [hx])]
      simp only [List.length_cons]
      have h1 := countP_not_add p t
      omega
    · rw [List.countP_cons_of_neg p t hx, List.countP_cons_of_pos _ t (by simp [hx])]
      simp only [List.length_cons]
      have h1 := countP_not_add p t
      omega

/-- The counting loop of `verifyTree` computes the two predicate counts. -/
theorem foldl_count (p : Nat → Bool) :
    ∀ (l : List Nat) (a b : Nat),
      l.foldl (fun acc i => if p i then (acc.1 + 1, acc.2) else (acc.1, acc.2 + 1)) (a, b) =
        (a + l.countP p, b + l.countP (fun i => !(p i)))
  | [], a, b => by simp
  | x :: t, a, b => by
    by_cases hx : p x
    · rw [List.foldl_cons, if_pos hx, foldl_count p t (a + 1) b,
        List.countP_cons_of_pos p t hx, List.countP_cons_of_neg _ t (by simp [hx])]
      rw [Prod.mk.injEq]
      exact ⟨by omega, by omega⟩
    · rw [List.foldl_cons, if_neg hx, foldl_count p t a (b + 1),
        List.countP_cons_of_neg p t hx, List.countP_cons_of_pos _ t (by simp [hx])]
      rw [Prod.mk.injEq]
      exact ⟨by omega, by omega⟩

/-- Concrete stand-in for SHA-256 on byte lists, used only to instantiate
witnesses. -/
def mockSha (bs : List Nat) : String :=
  "#" ++ String.intercalate "," (bs.map Nat.repr)

/-- Concrete stand-in for SHA-256 on strings, used only to instantiate
witnesses. -/
def mockShaStr (s : String) : String :=
  "H(" ++ s ++ ")"

/-! ### Claim theorems -/

/-- C1: for every tree freshly constructed from a non-empty record list and
every index `k` in `[0, len(leaves))`, verifying the `k`-th leaf with its
derived proof against the tree's root succeeds:
`verifyLeaf(leaves[k], getProof(tree, k), tree.root) = true`.  Stated for an
arbitrary digest function `sha` and an arbitrary leaf-hashing function
`hashFn` (covering both the `balances` and the `generic` variants of the
constructor). -/
theorem fresh_tree_verifies {α : Type} (sha : List Nat → String)
    (hashFn : List α → List String) (data : List α) (hdata : data ≠ []) (k : Nat)
    (hk : k < (mkTree (hashPair sha) hashFn data none none none).leaves.length) :
    verifyLeaf (hashPair sha)
      ((mkTree (hashPair sha) hashFn data none none none).leaves.getD k "")
      (getProof (mkTree (hashPair sha) hashFn data none none none).layers k)
      (mkTree (hashPair sha) hashFn data none none none).root = true := by
  have e : mkTree (hashPair sha) hashFn data none none none =
      freshTree (hashPair sha) hashFn data := rfl
  rw [e] at hk ⊢
  simp only [freshTree] at hk ⊢
  rw [verifyLeaf, decide_eq_true_eq, buildLayers]
  exact verify_fold (hashPair sha) (hashFn data).length (hashFn data) k le_rfl hk

/-- Witness for C1 at a concrete three-leaf generic tree and index 1. -/
theorem fresh_tree_verifies_witness :
    verifyLeaf (hashPair mockSha)
      ((mkTree (hashPair mockSha) (hashDataGeneric mockShaStr) ["a", "b", "c"]
          none none none).leaves.getD 1 "")
      (getProof (mkTree (hashPair mockSha) (hashDataGeneric mockShaStr) ["a", "b", "c"]
          none none none).layers 1)
      (mkTree (hashPair mockSha) (hashDataGeneric mockShaStr) ["a", "b", "c"]
          none none none).root = true :=
  fresh_tree_verifies mockSha (hashDataGeneric mockShaStr) ["a", "b", "c"] (by decide) 1
    (by decide)

/-- C2: in a freshly built tree, each layer halves rounded up
(`len(layers[i+1]) = (len(layers[i]) + 1) / 2 = ceil(len(layers[i]) / 2)`)
and every parent node is `hashPair` of its two children, the dangling last
node of an odd-length layer being paired with itself. -/
theorem buildTree_layer_invariants {α : Type} (sha : List Nat → String)
    (hashFn : List α → List String) (data : List α) (i : Nat) (cur next : List String)
    (hcur : (mkTree (hashPair sha) hashFn data none none none).layers[i]? = some cur)
    (hnext : (mkTree (hashPair sha) hashFn data none none none).layers[i + 1]? = some next) :
    next.length = (cur.length + 1) / 2
    ∧ ∀ j, j < next.length →
        next[j]? = some (if 2 * j + 1 < cur.length
          then hashPair sha (cur.getD (2 * j) "") (cur.getD (2 * j + 1) "")
          else hashPair sha (cur.getD (2 * j) "") (cur.getD (2 * j) "")) := by
  have e : mkTree (hashPair sha) hashFn data none none none =
      freshTree (hashPair sha) hashFn data := rfl
  rw [e] at hcur hnext
  simp only [freshTree, buildLayers] at hcur hnext
  have hadj := buildLayersAux_adj (hashPair sha) i (hashFn data).length (hashFn data)
    cur next le_rfl hcur hnext
  constructor
  · rw [hadj, combineLayer_length]
  · intro j hj
    rw [hadj] at hj ⊢
    have h2j : 2 * j < cur.length := by
      rw [combineLayer_length] at hj; omega
    rw [getElem?_lt (combineLayer (hashPair sha) cur) j "" hj,
      combineLayer_getD (hashPair sha) cur j h2j]

/-- Witness for C2 on the three-leaf generic tree: layer 1 halves layer 0
rounded up, and its node at index 1 is the self-paired hash of the dangling
third leaf. -/
theorem buildTree_layer_invariants_witness :
    (["#", "#"] : List String).length = ((["H(a)", "H(b)", "H(c)"] : List String).length + 1) / 2
    ∧ ∀ j, j < (["#", "#"] : List String).length →
        (["#", "#"] : List String)[j]? =
          some (if 2 * j + 1 < (["H(a)", "H(b)", "H(c)"] : List String).length
            then hashPair mockSha ((["H(a)", "H(b)", "H(c)"] : List String).getD (2 * j) "")
              ((["H(a)", "H(b)", "H(c)"] : List String).getD (2 * j + 1) "")
            else hashPair mockSha ((["H(a)", "H(b)", "H(c)"] : List String).getD (2 * j) "")
              ((["H(a)", "H(b)", "H(c)"] : List String).getD (2 * j) "")) :=
  buildTree_layer_invariants mockSha (hashDataGeneric mockShaStr) ["a", "b", "c"] 0
    ["H(a)", "H(b)", "H(c)"] ["#", "#"] (by decide) (by decide)

/-- C3 (counterexample): `getProof` does NOT fail with an `IndexOutOfRange`
error on an out-of-range index.  On the two-leaf tree, index 2 (outside
`[0, 2)`) returns an ordinary one-step proof whose sibling slot is the JS
`undefined` read `layers[0][2]` — no error of any kind is raised, because the
source performs no bounds check. -/
theorem getProof_no_bounds_check_cex :
    (mkTreeGeneric mockShaStr mockSha ["x", "y"] none none none).leaves.length = 2
    ∧ getProof (mkTreeGeneric mockShaStr mockSha ["x", "y"] none none none).layers 2 =
        [{ sibling := none, direction := Dir.right }] := by
  decide

/-- C3 (amended): `getProof` never fails; for every index — inside or outside
`[0, len(leaves))` — it returns a plain list of `len(layers) - 1` steps (an
out-of-range index merely produces garbage sibling reads). -/
theorem getProof_total_length (layers : List (List String)) (index : Nat) :
    (getProof layers index).length = layers.length - 1 :=
  getProof_length layers index

/-- C4: for a valid leaf index `k` of a fresh tree, the proof has one step
per non-root layer, and the step at layer `i` — where the current index is
`c = k / 2 ^ i`, i.e. `floor(c / 2)` iterated — is: sibling at `c - 1`
direction `left` if `c` is odd; sibling at `c + 1` direction `right` if `c`
is even and `c + 1` exists; the node at `c` itself direction `right`
otherwise. -/
theorem getProof_step_shape {α : Type} (sha : List Nat → String)
    (hashFn : List α → List String) (data : List α) (k : Nat)
    (hk : k < (mkTree (hashPair sha) hashFn data none none none).leaves.length)
    (i : Nat) (cur : List String)
    (hcur : (mkTree (hashPair sha) hashFn data none none none).layers[i]? = some cur) :
    (getProof (mkTree (hashPair sha) hashFn data none none none).layers k).length =
        (mkTree (hashPair sha) hashFn data none none none).layers.length - 1
    ∧ (i < (mkTree (hashPair sha) hashFn data none none none).layers.length - 1 →
        (getProof (mkTree (hashPair sha) hashFn data none none none).layers k)[i]? =
          some (if k / 2 ^ i % 2 = 1
            then { sibling := cur[k / 2 ^ i - 1]?, direction := Dir.left }
            else if k / 2 ^ i + 1 < cur.length
            then { sibling := cur[k / 2 ^ i + 1]?, direction := Dir.right }
            else { sibling := cur[k / 2 ^ i]?, direction := Dir.right })) := by
  have e : mkTree (hashPair sha) hashFn data none none none =
      freshTree (hashPair sha) hashFn data := rfl
  rw [e] at hk hcur ⊢
  simp only [freshTree, buildLayers] at hk hcur ⊢
  constructor
  · exact getProof_length _ k
  · intro hi
    have hrange := buildLayersAux_range (hashPair sha) i (hashFn data).length (hashFn data)
      cur k le_rfl hk hcur
    have hgi := getProof_getElem? (buildLayersAux (hashPair sha) (hashFn data).length
      (hashFn data)) k i hi
    have hlt : i < (buildLayersAux (hashPair sha) (hashFn data).length (hashFn data)).length :=
      by omega
    have hgd : (buildLayersAux (hashPair sha) (hashFn data).length (hashFn data)).getD i [] =
        cur := by
      have := getElem?_lt (buildLayersAux (hashPair sha) (hashFn data).length (hashFn data))
        i [] hlt
      rw [this] at hcur
      exact Option.some.injEq _ _ ▸ hcur
    rw [hgi, hgd, proofStep_cases cur (k / 2 ^ i) hrange]

/-- Witness for C4 on the three-leaf generic tree at index 2, layer 0: the
even, sibling-missing case yields the node itself with direction `right`. -/
theorem getProof_step_shape_witness :
    (getProof (mkTree (hashPair mockSha) (hashDataGeneric mockShaStr) ["a", "b", "c"]
        none none none).layers 2).length =
      (mkTree (hashPair mockSha) (hashDataGeneric mockShaStr) ["a", "b", "c"]
        none none none).layers.length - 1
    ∧ (0 < (mkTree (hashPair mockSha) (hashDataGeneric mockShaStr) ["a", "b", "c"]
        none none none).layers.length - 1 →
        (getProof (mkTree (hashPair mockSha) (hashDataGeneric mockShaStr) ["a", "b", "c"]
          none none none).layers 2)[0]? =
          some (if 2 / 2 ^ 0 % 2 = 1
            then { sibling := (["H(a)", "H(b)", "H(c)"] : List String)[2 / 2 ^ 0 - 1]?,
                   direction := Dir.left }
            else if 2 / 2 ^ 0 + 1 < (["H(a)", "H(b)", "H(c)"] : List String).length
            then { sibling := (["H(a)", "H(b)", "H(c)"] : List String)[2 / 2 ^ 0 + 1]?,
                   direction := Dir.right }
            else { sibling := (["H(a)", "H(b)", "H(c)"] : List String)[2 / 2 ^ 0]?,
                   direction := Dir.right })) :=
  getProof_step_shape mockSha (hashDataGeneric mockShaStr) ["a", "b", "c"] 2 (by decide) 0
    ["H(a)", "H(b)", "H(c)"] (by decide)

/-- C5: for any non-empty leaf list the built layers end in a layer of length
exactly 1, the number of layers is `ceil(log2(len)) + 1` (`Nat.clog 2` is the
ceiling base-2 logarithm), and a length-1 input produces exactly one layer
whose root slot is the sole leaf itself (no hashing performed). -/
theorem buildLayers_shape (sha : List Nat → String) (leaves : List String)
    (h : leaves ≠ []) :
    (buildLayers (hashPair sha) leaves).length = Nat.clog 2 leaves.length + 1
    ∧ ((buildLayers (hashPair sha) leaves).getD
        ((buildLayers (hashPair sha) leaves).length - 1) []).length = 1
    ∧ (leaves.length = 1 →
        buildLayers (hashPair sha) leaves = [leaves]
        ∧ rootOf (buildLayers (hashPair sha) leaves) = leaves[0]?) := by
  have hpos : 0 < leaves.length := List.length_pos.mpr h
  refine ⟨?_, ?_, ?_⟩
  · rw [buildLayers]
    exact buildLayersAux_length (hashPair sha) leaves.length leaves le_rfl
  · rw [buildLayers]
    exact buildLayersAux_last (hashPair sha) leaves.length leaves le_rfl hpos
  · intro h1
    obtain ⟨a, rfl⟩ : ∃ a, leaves = [a] := by
      cases leaves with
      | nil => simp at h1
      | cons x t =>
        cases t with
        | nil => exact ⟨x, rfl⟩
        | cons y t2 => simp at h1
    exact ⟨rfl, rfl⟩

/-- Witness for C5 on the singleton leaf list. -/
theorem buildLayers_shape_witness :
    (buildLayers (hashPair mockSha) ["x"]).length = Nat.clog 2 (["x"] : List String).length + 1
    ∧ ((buildLayers (hashPair mockSha) ["x"]).getD
        ((buildLayers (hashPair mockSha) ["x"]).length - 1) []).length = 1
    ∧ ((["x"] : List String).length = 1 →
        buildLayers (hashPair mockSha) ["x"] = [["x"]]
        ∧ rootOf (buildLayers (hashPair mockSha) ["x"]) = (["x"] : List String)[0]?) :=
  buildLayers_shape mockSha ["x"] (by decide)

/-- C6: a structured record is canonicalized to
`identifier ++ ":" ++ (asset1 ++ balance1) ++ "," ++ (asset2 ++ balance2) ++ …`
(fixed separators, no padding) before hashing, while a plain-string record is
hashed directly with no canonicalization. -/
theorem hashData_canonical (shaStr : String → String) :
    (∀ (data : List Account) (k : Nat), k < data.length →
      (hashDataBalances shaStr data)[k]? =
        some (shaStr ((data.getD k { identifier := "", balances := [] }).identifier ++ ":" ++
          String.intercalate ","
            ((data.getD k { identifier := "", balances := [] }).balances.map
              (fun b => b.asset ++ Nat.repr b.balance)))))
    ∧ (∀ (data : List String) (k : Nat), k < data.length →
      (hashDataGeneric shaStr data)[k]? = some (shaStr (data.getD k ""))) := by
  constructor
  · intro data k h
    rw [hashDataBalances, List.getElem?_map,
      getElem?_lt data k { identifier := "", balances := [] } h]
    simp [stringifyAccounts]
  · intro data k h
    rw [hashDataGeneric, List.getElem?_map, getElem?_lt data k "" h]
    simp

/-- Witness for C6 on a concrete account with two balances. -/
theorem hashData_canonical_witness :
    (hashDataBalances mockShaStr
      [{ identifier := "alice",
         balances := [{ asset := "eth", balance := 5 }, { asset := "btc", balance := 2 }] }])[0]? =
      some (mockShaStr "alice:eth5,btc2") :=
  (hashData_canonical mockShaStr).1
    [{ identifier := "alice",
       balances := [{ asset := "eth", balance := 5 }, { asset := "btc", balance := 2 }] }]
    0 (by decide)

/-- C7: `verifyTree` applies `getProof` and `verifyLeaf` to every leaf index
against the tree's root (the two counts are the exact predicate counts over
all indices — no short-circuiting), the counts sum to the number of leaves,
and the validity flag holds iff the failure count is zero.  It is a total
function: an unverifiable leaf only increments the failure count. -/
theorem verifyTree_spec {α : Type} (hp : String → String → String)
    (t : MerkleTreeModel α) :
    (verifyTree hp t).completed = (List.range t.leaves.length).countP
        (fun i => verifyLeaf hp (t.leaves.getD i "") (getProof t.layers i) t.root)
    ∧ (verifyTree hp t).errors = (List.range t.leaves.length).countP
        (fun i => !(verifyLeaf hp (t.leaves.getD i "") (getProof t.layers i) t.root))
    ∧ (verifyTree hp t).completed + (verifyTree hp t).errors = t.leaves.length
    ∧ ((verifyTree hp t).status = true ↔ (verifyTree hp t).errors = 0) := by
  have h := foldl_count
    (fun i => verifyLeaf hp (t.leaves.getD i "") (getProof t.layers i) t.root)
    (List.range t.leaves.length) 0 0
  simp only [verifyTree, h]
  refine ⟨by simp, by simp, ?_, by simp⟩
  have hc := countP_not_add
    (fun i => verifyLeaf hp (t.leaves.getD i "") (getProof t.layers i) t.root)
    (List.range t.leaves.length)
  simp only [List.length_range] at hc
  simpa using hc

/-- C8 (counterexample): a malformed hex input does NOT fail with a
`DecodeError`: `Buffer.from` silently truncates at the first invalid pair, so
`hashPair` on the invalid digest `"zz"` returns an ordinary digest of the
empty byte string — and in particular does not hash the concatenation of the
two operands' own byte decodings. -/
theorem hashPair_malformed_cex :
    hexDecode "zz" = []
    ∧ hashPair mockSha "zz" "abcd" = mockSha []
    ∧ hashPair mockSha "zz" "abcd" ≠ mockSha (hexDecode "zz" ++ hexDecode "abcd") := by
  decide

/-- C8 (amended): `hashPair` hex-decodes the string concatenation
`left + right` and digests the resulting bytes; whenever `left` is a
well-formed (even-length, all-hex) digest this equals the digest of left's
bytes followed by right's bytes.  Malformed hex never fails: decoding
silently truncates at the first invalid pair. -/
theorem hashPair_bytes (sha : List Nat → String) (left right : String)
    (h : validHex left = true) :
    hashPair sha left right = sha (hexDecode left ++ hexDecode right) := by
  rw [validHex, Bool.and_eq_true] at h
  obtain ⟨h1, h2⟩ := h
  rw [hashPair]
  congr 1
  rw [hexDecode, hexDecode, hexDecode, String.data_append]
  exact hexDecodeAux_append left.data right.data (by simpa using h2)
    (fun c hc => List.all_eq_true.mp h1 c hc)

/-- Witness for C8 (amended) on well-formed digests. -/
theorem hashPair_bytes_witness :
    hashPair mockSha "ab" "cd" = mockSha (hexDecode "ab" ++ hexDecode "cd") :=
  hashPair_bytes mockSha "ab" "cd" (by decide)

/-- C9 (counterexample): the constructor does NOT validate a precomputed
bundle: it accepts a bundle whose leaf layer disagrees with the record count
and whose root disagrees with the last layer's sole node, producing a tree
that violates the structural invariants 1-3. -/
theorem constructor_skips_validation_cex :
    (mkTreeGeneric mockShaStr mockSha ["d"] (some ["x", "y"])
        (some [["x", "y"], ["c"]]) (some "wrong")).root = some "wrong"
    ∧ specInvariants (mkTreeGeneric mockShaStr mockSha ["d"] (some ["x", "y"])
        (some [["x", "y"], ["c"]]) (some "wrong")) = false := by
  decide

/-- C9 (amended): when leaves, layers and a non-empty root are all supplied,
the constructor skips hashing and performs NO validation: the resulting
tree's fields are exactly the supplied bundle, so the structural invariants
are not guaranteed to hold. -/
theorem mkTree_bundle_copies {α : Type} (hp : String → String → String)
    (hashFn : List α → List String) (data : List α) (leaves : List String)
    (layers : List (List String)) (root : String) (h : root ≠ "") :
    mkTree hp hashFn data (some leaves) (some layers) (some root) =
      { leaves := leaves, layers := layers, data := data, root := some root } := by
  simp [mkTree, h]

/-- Witness for C9 (amended) on a concrete bundle. -/
theorem mkTree_bundle_copies_witness :
    mkTreeGeneric mockShaStr mockSha ["d"] (some ["x"]) (some [["x"]]) (some "r") =
      { leaves := ["x"], layers := [["x"]], data := ["d"], root := some "r" } :=
  mkTree_bundle_copies (hashPair mockSha) (hashDataGeneric mockShaStr) ["d"] ["x"] [["x"]]
    "r" (by decide)

/-- C10: a fresh tree built from an empty data list has layers `[[]]` (one
empty layer) and its root slot is the absent value read at position 0 of that
empty last layer (JS `undefined`, modelled `none`) — so no length-one last
layer exists in this edge case.  Holds for both constructor variants. -/
theorem mkTree_empty_data (shaStr : String → String) (sha : List Nat → String) :
    (mkTreeGeneric shaStr sha [] none none none).layers = [[]]
    ∧ (mkTreeGeneric shaStr sha [] none none none).root = none
    ∧ (mkTreeBalances shaStr sha [] none none none).layers = [[]]
    ∧ (mkTreeBalances shaStr sha [] none none none).root = none :=
  ⟨rfl, rfl, rfl, rfl⟩

end BunMerkle
